import Mathlib

/-! Formal model of the student-marks bot of main.py: the grade classifier,
the date parser, the reconciliation engine of fetch_student_data, the
formatter annotations of format_student_message, the long-message splitter
and the inbound identifier validation of handle_student_id.  Python strings
are modelled as Lean strings, that is lists of Unicode code points, matching
Python string semantics where one character is one code point; numeric marks
are modelled as rationals. -/

/-- Pass, fail or unknown, the three results of the grade classifier. -/
inductive Status where
  | pass : Status
  | fail : Status
  | unknown : Status
deriving DecidableEq

/-- Model of StudentDataFetcher.get_status: float(mark) succeeds exactly when
the input is interpretable as a number, modelled as an optional rational; a
numeric value of at least 60 is a pass, any other numeric value a fail, and a
non-numeric input is unknown (the bare except branch). -/
def get_status (mark : Option ℚ) : Status :=
  match mark with
  | some v => if 60 ≤ v then Status.pass else Status.fail
  | none => Status.unknown

/-- Calendar date as produced by datetime.strptime with format YYYY/MM/DD. -/
structure CalDate where
  year : Nat
  month : Nat
  day : Nat
deriving DecidableEq

/-- Numeric sort code of a date; on the ranges produced by parse_date
(four-digit year, month 1-12, day 1-31) it is order-isomorphic to the
lexicographic ordering of Python datetime values. -/
def CalDate.code (d : CalDate) : Nat := d.year * 10000 + d.month * 100 + d.day

/-- Code of datetime.min, that is the date 0001/01/01. -/
def dateMinCode : Nat := 10101

/-- Code point ranges of the characters Python str.isspace holds true of,
exactly the characters str.strip without arguments removes: the ASCII
control whitespace and information separators, space, next line, no-break
space, Ogham space mark, the general punctuation spaces, line and paragraph
separator, narrow no-break space, medium mathematical space and ideographic
space (the full table of CPython 3.11, Unicode 14.0). -/
def pySpaceRanges : List (Nat × Nat) :=
  [(9, 13), (28, 32), (133, 133), (160, 160), (5760, 5760), (8192, 8202),
   (8232, 8233), (8239, 8239), (8287, 8287), (12288, 12288)]

/-- Model of Python str.isspace on one character, the per-character test of
str.strip without arguments. -/
def isPySpace (c : Char) : Bool :=
  pySpaceRanges.any (fun r => r.fst ≤ c.toNat && c.toNat ≤ r.snd)

/-- Strip of leading and trailing whitespace on a character list. -/
def pyStripList (l : List Char) : List Char :=
  ((l.dropWhile isPySpace).reverse.dropWhile isPySpace).reverse

/-- Model of Python str.strip without arguments. -/
def pyStrip (s : String) : String := String.mk (pyStripList s.data)

/-- Code point ranges of the characters Python str.isdigit holds true of:
every character of Unicode numeric type decimal or digit, that is the
decimal digit blocks of all scripts (ASCII, Arabic-Indic, Extended
Arabic-Indic and the rest) together with the digit-typed characters such as
superscript, subscript, circled, parenthesized, mathematical, full-width and
segmented digits (the full table of CPython 3.11, Unicode 14.0). -/
def pyDigitRanges : List (Nat × Nat) :=
  [(48, 57), (178, 179), (185, 185), (1632, 1641), (1776, 1785),
   (1984, 1993), (2406, 2415), (2534, 2543), (2662, 2671), (2790, 2799),
   (2918, 2927), (3046, 3055), (3174, 3183), (3302, 3311), (3430, 3439),
   (3558, 3567), (3664, 3673), (3792, 3801), (3872, 3881), (4160, 4169),
   (4240, 4249), (4969, 4977), (6112, 6121), (6160, 6169), (6470, 6479),
   (6608, 6618), (6784, 6793), (6800, 6809), (6992, 7001), (7088, 7097),
   (7232, 7241), (7248, 7257), (8304, 8304), (8308, 8313), (8320, 8329),
   (9312, 9320), (9332, 9340), (9352, 9360), (9450, 9450), (9461, 9469),
   (9471, 9471), (10102, 10110), (10112, 10120), (10122, 10130),
   (42528, 42537), (43216, 43225), (43264, 43273), (43472, 43481),
   (43504, 43513), (43600, 43609), (44016, 44025), (65296, 65305),
   (66720, 66729), (68160, 68163), (68912, 68921), (69216, 69224),
   (69714, 69722), (69734, 69743), (69872, 69881), (69942, 69951),
   (70096, 70105), (70384, 70393), (70736, 70745), (70864, 70873),
   (71248, 71257), (71360, 71369), (71472, 71481), (71904, 71913),
   (72016, 72025), (72784, 72793), (73040, 73049), (73120, 73129),
   (92768, 92777), (92864, 92873), (93008, 93017), (120782, 120831),
   (123200, 123209), (123632, 123641), (125264, 125273), (127232, 127242),
   (130032, 130041)]

/-- Model of Python str.isdigit on one character. -/
def isPyDigit (c : Char) : Bool :=
  pyDigitRanges.any (fun r => r.fst ≤ c.toNat && c.toNat ≤ r.snd)

/-- Model of Python str.isdigit: true exactly when the string is nonempty and
every character is a digit. -/
def pyIsDigit (s : String) : Bool :=
  !s.data.isEmpty && s.data.all isPyDigit

/-- Numeric value of a list of ASCII digit characters. -/
def digitsVal (l : List Char) : Nat :=
  l.foldl (fun n c => 10 * n + (c.toNat - 48)) 0

/-- Days in a month under the Gregorian leap rule, as validated by the
datetime constructor called inside strptime. -/
def daysInMonth (y m : Nat) : Nat :=
  if m = 2 then (if (y % 4 = 0 && !(y % 100 = 0)) || y % 400 = 0 then 29 else 28)
  else if m = 4 || m = 6 || m = 9 || m = 11 then 30 else 31

/-- Split of a character list at every slash. -/
def splitSlash : List Char → List Char → List (List Char)
  | [], acc => [acc.reverse]
  | c :: rest, acc =>
    if c = '/' then acc.reverse :: splitSlash rest []
    else splitSlash rest (c :: acc)

/-- One field of the strptime date pattern: digit characters only, with a
length between the two bounds. -/
def digitField (l : List Char) (lo hi : Nat) : Bool :=
  l.all Char.isDigit && decide (lo ≤ l.length) && decide (l.length ≤ hi)

/-- Model of StudentDataFetcher.parse_date: strip the string, then match the
whole of it against the strptime format YYYY/MM/DD, that is a four-digit
year of at least 1, a one- or two-digit month between 1 and 12 and a one- or
two-digit day valid for that month and year; any mismatch yields none. -/
def parse_date (s : String) : Option CalDate :=
  match splitSlash (pyStripList s.data) [] with
  | [ys, ms, ds] =>
    if digitField ys 4 4 && digitField ms 1 2 && digitField ds 1 2 then
      let y := digitsVal ys
      let m := digitsVal ms
      let d := digitsVal ds
      if 1 ≤ y ∧ 1 ≤ m ∧ m ≤ 12 ∧ 1 ≤ d ∧ d ≤ daysInMonth y m then
        some (CalDate.mk y m d)
      else none
    else none
  | _ => none

/-- One subject record: both the raw occurrences collected in subjects_data
and the reconciled records in final_subjects carry exactly these fields. -/
structure Subj where
  name : String
  mark : ℚ
  status : Status
  semester : String
  markDisplay : String
  releaseDate : String
  parsedDate : Option CalDate
deriving DecidableEq

instance : Inhabited Subj := ⟨⟨"", 0, Status.unknown, "", "", "", none⟩⟩

/-- Sort key used by both sorts of fetch_student_data: the parsed date, with
datetime.min substituted when the date is unparsable. -/
def dateKey (s : Subj) : Nat := (s.parsedDate.getD (CalDate.mk 1 1 1)).code

/-- Date ordering of subject records. -/
def dateLE (a b : Subj) : Prop := dateKey a ≤ dateKey b

instance : DecidableRel dateLE := fun _ _ => Nat.decLe _ _

instance : IsTotal Subj dateLE := ⟨fun _ _ => Nat.le_total _ _⟩

instance : IsTrans Subj dateLE := ⟨fun _ _ _ h1 h2 => Nat.le_trans h1 h2⟩

/-- Python sorted and list.sort with the date key: Python sorting is stable,
and a stable sort by a total preorder is extensionally unique, so insertion
sort with the same key is the faithful model. -/
def sortByDate (l : List Subj) : List Subj := List.insertionSort dateLE l

/-- Model of Python max over occurrences with the mark as key, starting from
the first element: the running maximum is replaced only when a later element
is strictly greater, so the first element attaining the maximum wins. -/
def pyMaxBy (f : Subj → ℚ) : List Subj → Subj
  | [] => default
  | x :: xs => xs.foldl (fun acc y => if f acc < f y then y else acc) x

/-- Maximum of a list of rationals, zero for the empty list. -/
def maxOf : List ℚ → ℚ
  | [] => 0
  | x :: xs => xs.foldl max x

/-- One step of the grouping loop of fetch_student_data: append the
occurrence to the group of its subject name, creating the group at the end
on first sight of the name, as a Python defaultdict does given that Python
dicts preserve insertion order. -/
def addOcc (gs : List (String × List Subj)) (o : Subj) : List (String × List Subj) :=
  if gs.any (fun g => g.fst == o.name) then
    gs.map (fun g => if g.fst = o.name then (g.fst, g.snd ++ [o]) else g)
  else gs ++ [(o.name, [o])]

/-- Model of the subject_groups defaultdict after the grouping loop: the
groups in first-occurrence order of subject names, each group holding its
occurrences in original row order. -/
def subjectGroups (rows : List Subj) : List (String × List Subj) :=
  rows.foldl addOcc []

/-- Accumulate one key into a key list kept in first-occurrence order. -/
def addKey (ks : List String) (n : String) : List String :=
  if n ∈ ks then ks else ks ++ [n]

/-- Distinct names of a list in first-occurrence order, matching the key
order of a Python dict filled by the grouping loop. -/
def firstKeys (ns : List String) : List String := ns.foldl addKey []

/-- Reconciliation of one subject group as in the loop of fetch_student_data:
sort the occurrences by date and take the first as oldest, take the
occurrence with the maximal mark as newest (Python max, so the first such
occurrence), and combine the oldest date fields with the newest mark fields,
recomputing the status from the newest mark. -/
def reconcileGroup (name : String) (occs : List Subj) : Subj :=
  let oldest := (sortByDate occs).headD default
  let newest := pyMaxBy (fun o => o.mark) occs
  ⟨name, newest.mark, get_status (some newest.mark), oldest.semester,
    newest.markDisplay, oldest.releaseDate, oldest.parsedDate⟩

/-- Model of the reconciliation part of fetch_student_data: group the valid
raw occurrences by subject name, reconcile each group, and sort the result
by release date. -/
def fetch_student_subjects (rows : List Subj) : List Subj :=
  sortByDate ((subjectGroups rows).map (fun g => reconcileGroup g.fst g.snd))

/-- Mark line annotation of format_student_message: a check mark before the
display string when the mark is at least 60, a cross otherwise. -/
def markLine (s : Subj) : String :=
  if 60 ≤ s.mark then "✅ " ++ s.markDisplay else "❌ " ++ s.markDisplay

/-- Check-mark test on a rendered mark line. -/
def lineHasCheck (line : String) : Bool := line.data.head? == some '✅'

/-- Pass counter of format_student_message: the number of subjects whose
mark is at least 60. -/
def passed_count (subs : List Subj) : Nat :=
  (subs.filter (fun s => decide (60 ≤ s.mark))).length

/-- Paragraph separator, a double newline. -/
def dnl : List Char := ['\n', '\n']

/-- Model of Python str.split with a double-newline separator, on character
lists: scan left to right, starting a new piece after each non-overlapping
separator occurrence. -/
def splitParas : List Char → List Char → List (List Char)
  | [], acc => [acc.reverse]
  | [c], acc => [(c :: acc).reverse]
  | c1 :: c2 :: rest, acc =>
    if c1 = '\n' ∧ c2 = '\n' then acc.reverse :: splitParas rest []
    else splitParas (c2 :: rest) (c1 :: acc)

/-- Greedy chunk packing loop of handle_student_id: each paragraph gets the
separator re-appended; a paragraph that would push the current chunk past
4000 characters flushes the chunk first (an empty chunk is not flushed), and
the final chunk is flushed after the loop. -/
def packChunks : List (List Char) → List Char → List (List Char)
  | [], current => if current.isEmpty then [] else [current]
  | p :: ps, current =>
    if 4000 < current.length + p.length + 2 then
      (if current.isEmpty then [] else [current]) ++ packChunks ps (p ++ dnl)
    else
      packChunks ps (current ++ p ++ dnl)

/-- Message delivery step of handle_student_id: a message of more than 4000
characters is split at double newlines and packed greedily; a shorter
message is sent whole. -/
def sendChunks (msg : List Char) : List (List Char) :=
  if 4000 < msg.length then packChunks (splitParas msg []) [] else [msg]

/-- Observable outcome of handle_student_id on one inbound text: either the
fixed invalid-id reply with no fetch attempted, or a fetch of the validated
identifier. -/
inductive BotAction where
  | invalidReply : BotAction
  | fetch : String → BotAction
deriving DecidableEq

/-- Model of the validation of handle_student_id: strip the inbound text,
reject with the invalid-id reply unless the result consists of digits only,
else fetch the stripped identifier. -/
def handle_student_id (text : String) : BotAction :=
  let sid := pyStrip text
  if pyIsDigit sid then BotAction.fetch sid else BotAction.invalidReply

/-- Extensional form of the subject grouping: keys in first-occurrence order,
each paired with the in-order occurrences of that name. -/
def groupsOf (rows : List Subj) : List (String × List Subj) :=
  (firstKeys (rows.map Subj.name)).map
    (fun k => (k, rows.filter (fun o => o.name == k)))

/-- First sitting of the worked example: mark 55 posted 2024/01/10. -/
def exOcc1 : Subj :=
  ⟨"S", 55, get_status (some 55), "sem-a", "55", "2024/01/10", parse_date "2024/01/10"⟩

/-- Second sitting of the worked example: mark 90 posted 2023/09/01. -/
def exOcc2 : Subj :=
  ⟨"S", 90, get_status (some 90), "sem-b", "90", "2023/09/01", parse_date "2023/09/01"⟩

/-- Third sitting of the worked example: mark 70 posted 2024/03/01. -/
def exOcc3 : Subj :=
  ⟨"S", 70, get_status (some 70), "sem-c", "70", "2024/03/01", parse_date "2024/03/01"⟩

/-- Row list of the worked example of the spec. -/
def exRows : List Subj := [exOcc1, exOcc2, exOcc3]

/-- Reconciled record of the worked example. -/
def exRec : Subj := reconcileGroup "S" exRows

/-- First sitting of the tie example: mark 90 shown as 90, posted later. -/
def exTie1 : Subj :=
  ⟨"T", 90, get_status (some 90), "semX", "90", "2024/01/10", parse_date "2024/01/10"⟩

/-- Second sitting of the tie example: mark 90 shown as 90.0, posted earlier. -/
def exTie2 : Subj :=
  ⟨"T", 90, get_status (some 90), "semY", "90.0", "2023/09/01", parse_date "2023/09/01"⟩

/-- Row list of the tie example. -/
def exTieRows : List Subj := [exTie1, exTie2]

/-- Reconciled record of the tie example. -/
def exTieRec : Subj := reconcileGroup "T" exTieRows

/-- Subject row with the minimum representable valid date 0001/01/01. -/
def exMinDate : Subj :=
  ⟨"A", 50, get_status (some 50), "sem1", "50", "0001/01/01", parse_date "0001/01/01"⟩

/-- Subject row whose release date string N/A is unparsable. -/
def exNoDate : Subj :=
  ⟨"B", 50, get_status (some 50), "sem1", "50", "N/A", parse_date "N/A"⟩

/-- Subject row with a valid 2024 date. -/
def exLateDate : Subj :=
  ⟨"C", 80, get_status (some 80), "sem2", "80", "2024/05/01", parse_date "2024/05/01"⟩

/-- Message of 4001 identical characters: longer than the threshold but with
no double-newline boundary anywhere. -/
def bigMsg : List Char := List.replicate 4001 'a'

/-- Paragraph of 2500 letters. -/
def paraA : List Char := List.replicate 2500 'a'

/-- Second paragraph of 2500 letters. -/
def paraB : List Char := List.replicate 2500 'b'

/-- Two-paragraph message of 5002 characters, every paragraph within the
threshold. -/
def twoParaMsg : List Char := paraA ++ ('\n' :: '\n' :: paraB)

lemma mem_foldl_addKey (ns : List String) :
    ∀ acc n, n ∈ ns.foldl addKey acc ↔ n ∈ acc ∨ n ∈ ns := by
  induction ns with
  | nil => intro acc n; simp
  | cons m ms ih =>
    intro acc n
    rw [List.foldl_cons, ih]
    unfold addKey
    by_cases hm : m ∈ acc
    · rw [if_pos hm]
      simp only [List.mem_cons]
      constructor
      · rintro (h | h)
        · exact Or.inl h
        · exact Or.inr (Or.inr h)
      · rintro (h | rfl | h)
        · exact Or.inl h
        · exact Or.inl hm
        · exact Or.inr h
    · rw [if_neg hm]
      simp only [List.mem_append, List.mem_singleton, List.mem_cons]
      tauto

lemma mem_firstKeys (ns : List String) (n : String) :
    n ∈ firstKeys ns ↔ n ∈ ns := by
  rw [firstKeys, mem_foldl_addKey]
  simp

lemma nodup_foldl_addKey (ns : List String) :
    ∀ acc, acc.Nodup → (ns.foldl addKey acc).Nodup := by
  induction ns with
  | nil => intro acc h; simpa using h
  | cons m ms ih =>
    intro acc h
    rw [List.foldl_cons]
    apply ih
    unfold addKey
    by_cases hm : m ∈ acc
    · rwa [if_pos hm]
    · rw [if_neg hm]
      refine List.Nodup.append h (List.nodup_singleton m) ?_
      simpa using hm

lemma nodup_firstKeys (ns : List String) : (firstKeys ns).Nodup :=
  nodup_foldl_addKey ns [] List.nodup_nil

lemma firstKeys_snoc (ns : List String) (n : String) :
    firstKeys (ns ++ [n]) = addKey (firstKeys ns) n := by
  rw [firstKeys, firstKeys, List.foldl_append, List.foldl_cons, List.foldl_nil]

lemma addOcc_groupsOf (pre : List Subj) (o : Subj) :
    addOcc (groupsOf pre) o = groupsOf (pre ++ [o]) := by
  have hnames : (pre ++ [o]).map Subj.name = pre.map Subj.name ++ [o.name] := by simp
  by_cases hmem : o.name ∈ pre.map Subj.name
  · have hk : o.name ∈ firstKeys (pre.map Subj.name) := (mem_firstKeys _ _).2 hmem
    have hany : (groupsOf pre).any (fun g => g.fst == o.name) = true := by
      rw [List.any_eq_true]
      refine ⟨(o.name, pre.filter (fun x => x.name == o.name)), ?_, by simp⟩
      rw [groupsOf]
      exact List.mem_map_of_mem _ hk
    rw [addOcc, if_pos hany, groupsOf, groupsOf, List.map_map, hnames,
      firstKeys_snoc, addKey, if_pos hk]
    apply List.map_congr_left
    intro k hkk
    by_cases hko : k = o.name
    · subst hko
      simp only [Function.comp_apply, if_pos rfl]
      rw [List.filter_append _ _]
      simp
    · simp only [Function.comp_apply, if_neg hko]
      rw [List.filter_append _ _]
      have hpo : (o.name == k) = false :=
        beq_eq_false_iff_ne.mpr (fun hh => hko hh.symm)
      have : [o].filter (fun x => x.name == k) = [] := by
        simp [List.filter_singleton, hpo]
      rw [this, List.append_nil]
  · have hk : o.name ∉ firstKeys (pre.map Subj.name) := fun hh =>
      hmem ((mem_firstKeys _ _).1 hh)
    have hany : ¬ (groupsOf pre).any (fun g => g.fst == o.name) = true := by
      rw [List.any_eq_true]
      rintro ⟨g, hg, hgeq⟩
      rw [groupsOf] at hg
      obtain ⟨k, hkmem, rfl⟩ := List.mem_map.1 hg
      simp only [beq_iff_eq] at hgeq
      exact hk (hgeq ▸ hkmem)
    rw [addOcc, if_neg hany, groupsOf, groupsOf, hnames, firstKeys_snoc,
      addKey, if_neg hk, List.map_append _ _ _]
    congr 1
    · apply List.map_congr_left
      intro k hkk
      have hko : o.name ≠ k := fun hh =>
        hmem (hh ▸ ((mem_firstKeys _ _).1 hkk))
      rw [List.filter_append _ _]
      have hpo : (o.name == k) = false := beq_eq_false_iff_ne.mpr hko
      have : [o].filter (fun x => x.name == k) = [] := by
        simp [List.filter_singleton, hpo]
      rw [this, List.append_nil]
    · simp only [List.map_singleton]
      have : pre.filter (fun x => x.name == o.name) = [] := by
        rw [List.filter_eq_nil_iff]
        intro x hx
        simp only [beq_iff_eq]
        exact fun hh => hmem (hh ▸ List.mem_map_of_mem Subj.name hx)
      rw [List.filter_append _ _, this, List.nil_append]
      simp [List.filter]

lemma foldl_addOcc_groupsOf (rows : List Subj) :
    ∀ pre, rows.foldl addOcc (groupsOf pre) = groupsOf (pre ++ rows) := by
  induction rows with
  | nil => intro pre; simp
  | cons o rs ih =>
    intro pre
    rw [List.foldl_cons, addOcc_groupsOf, ih (pre ++ [o])]
    simp

lemma subjectGroups_eq_groupsOf (rows : List Subj) :
    subjectGroups rows = groupsOf rows := by
  have h0 : ([] : List (String × List Subj)) = groupsOf [] := by
    simp [groupsOf, firstKeys]
  rw [subjectGroups, h0, foldl_addOcc_groupsOf rows [], List.nil_append]

lemma sortByDate_perm (l : List Subj) : List.Perm (sortByDate l) l :=
  List.perm_insertionSort dateLE l

lemma sortByDate_sorted (l : List Subj) : (sortByDate l).Sorted dateLE :=
  List.sorted_insertionSort dateLE l

lemma sortByDate_ne_nil {l : List Subj} (h : l ≠ []) : sortByDate l ≠ [] := by
  intro hh
  apply h
  have hlen := (sortByDate_perm l).length_eq
  rw [hh] at hlen
  exact List.length_eq_zero.mp hlen.symm

lemma headD_sortByDate_mem {l : List Subj} (h : l ≠ []) :
    (sortByDate l).headD default ∈ l := by
  have hne := sortByDate_ne_nil h
  cases hs : sortByDate l with
  | nil => exact absurd hs hne
  | cons a t =>
    have ha : a ∈ sortByDate l := hs ▸ List.mem_cons_self a t
    have := (sortByDate_perm l).subset ha
    simpa [hs, List.headD] using this

lemma headD_sortByDate_min (l : List Subj) :
    ∀ y ∈ l, dateKey ((sortByDate l).headD default) ≤ dateKey y := by
  intro y hy
  have hy2 : y ∈ sortByDate l := by
    rw [sortByDate, List.mem_insertionSort]
    exact hy
  have hsorted := sortByDate_sorted l
  cases hs : sortByDate l with
  | nil => rw [hs] at hy2; cases hy2
  | cons a t =>
    rw [hs] at hy2 hsorted
    rcases List.mem_cons.1 hy2 with rfl | hyt
    · simp [List.headD]
    · have := List.rel_of_sorted_cons hsorted y hyt
      simpa [List.headD] using this

lemma filter_orderedInsert (K : Nat) (a : Subj) (l : List Subj) :
    (l.orderedInsert dateLE a).filter (fun x => dateKey x == K) =
      if dateKey a == K then a :: l.filter (fun x => dateKey x == K)
      else l.filter (fun x => dateKey x == K) := by
  induction l with
  | nil =>
    rw [List.orderedInsert, List.filter_singleton]
    cases hpa : (dateKey a == K) <;> simp [hpa]
  | cons b t ih =>
    rw [List.orderedInsert]
    by_cases hab : dateLE a b
    · rw [if_pos hab, List.filter_cons, List.filter_cons]
    · rw [if_neg hab, List.filter_cons, ih, List.filter_cons]
      have hba : dateKey b < dateKey a := Nat.lt_of_not_le hab
      by_cases hpa : dateKey a = K
      · have hpb : (dateKey b == K) = false := by
          refine beq_eq_false_iff_ne.mpr (fun hh => ?_)
          rw [hh, ← hpa] at hba
          exact Nat.lt_irrefl _ hba
        simp [hpa, hpb]
      · have hpa2 : (dateKey a == K) = false := beq_eq_false_iff_ne.mpr hpa
        simp [hpa2]

lemma filter_sortByDate (K : Nat) (l : List Subj) :
    (sortByDate l).filter (fun x => dateKey x == K) =
      l.filter (fun x => dateKey x == K) := by
  induction l with
  | nil => rfl
  | cons a t ih =>
    rw [sortByDate, List.insertionSort, filter_orderedInsert, List.filter_cons]
    rw [show List.insertionSort dateLE t = sortByDate t from rfl, ih]

lemma le_foldl_max (l : List ℚ) : ∀ b : ℚ, b ≤ l.foldl max b := by
  induction l with
  | nil => intro b; exact le_refl b
  | cons c t ih => intro b; exact le_trans (le_max_left b c) (ih (max b c))

lemma foldl_max_mem_le (l : List ℚ) : ∀ b, ∀ a ∈ l, a ≤ l.foldl max b := by
  induction l with
  | nil => intro b a ha; cases ha
  | cons c t ih =>
    intro b a ha
    rcases List.mem_cons.1 ha with rfl | hat
    · exact le_trans (le_max_right b a) (le_foldl_max t (max b a))
    · exact ih (max b c) a hat

lemma foldl_max_attained (l : List ℚ) : ∀ b, l.foldl max b = b ∨ l.foldl max b ∈ l := by
  induction l with
  | nil => intro b; exact Or.inl rfl
  | cons c t ih =>
    intro b
    rw [List.foldl_cons]
    rcases ih (max b c) with h | h
    · rcases max_choice b c with he | he
      · left; rw [h, he]
      · right; rw [h, he]; exact List.mem_cons_self c t
    · right; exact List.mem_cons_of_mem c h

lemma mem_le_maxOf {l : List ℚ} (hne : l ≠ []) : ∀ a ∈ l, a ≤ maxOf l := by
  intro a ha
  cases l with
  | nil => exact absurd rfl hne
  | cons x xs =>
    rw [maxOf]
    rcases List.mem_cons.1 ha with rfl | hax
    · exact le_foldl_max xs a
    · exact foldl_max_mem_le xs x a hax

lemma maxOf_mem {l : List ℚ} (hne : l ≠ []) : maxOf l ∈ l := by
  cases l with
  | nil => exact absurd rfl hne
  | cons x xs =>
    rw [maxOf]
    rcases foldl_max_attained xs x with h | h
    · rw [h]; exact List.mem_cons_self x xs
    · exact List.mem_cons_of_mem x h

lemma mark_foldl_pyMax (f : Subj → ℚ) :
    ∀ (xs : List Subj) (x : Subj),
      f (xs.foldl (fun acc y => if f acc < f y then y else acc) x) =
        (xs.map f).foldl max (f x) := by
  intro xs
  induction xs with
  | nil => intro x; rfl
  | cons y ys ih =>
    intro x
    rw [List.foldl_cons, List.map_cons, List.foldl_cons, ih]
    congr 1
    by_cases h : f x < f y
    · rw [if_pos h, max_eq_right (le_of_lt h)]
    · rw [if_neg h, max_eq_left (le_of_not_lt h)]

lemma foldl_pyMax_eq_filter_head (f : Subj → ℚ) :
    ∀ (xs : List Subj) (x : Subj),
      xs.foldl (fun acc y => if f acc < f y then y else acc) x =
        ((x :: xs).filter
          (fun z => decide (f z = (xs.map f).foldl max (f x)))).headD default := by
  intro xs
  induction xs with
  | nil => intro x; simp [List.filter]
  | cons y ys ih =>
    intro x
    rw [List.foldl_cons]
    by_cases hxy : f x < f y
    · rw [if_pos hxy, ih y]
      have hM : ((y :: ys).map f).foldl max (f x) = (ys.map f).foldl max (f y) := by
        rw [List.map_cons, List.foldl_cons, max_eq_right (le_of_lt hxy)]
      simp only [hM]
      have hfx : f x < (ys.map f).foldl max (f y) :=
        lt_of_lt_of_le hxy (le_foldl_max _ _)
      have hdx : (decide (f x = (ys.map f).foldl max (f y))) = false :=
        decide_eq_false (ne_of_lt hfx)
      conv_rhs => rw [List.filter_cons]
      simp only [hdx, Bool.false_eq_true, if_false]
    · rw [if_neg hxy, ih x]
      have hyx : f y ≤ f x := le_of_not_lt hxy
      have hM : ((y :: ys).map f).foldl max (f x) = (ys.map f).foldl max (f x) := by
        rw [List.map_cons, List.foldl_cons, max_eq_left hyx]
      simp only [hM]
      by_cases hpx : f x = (ys.map f).foldl max (f x)
      · have hd : (decide (f x = (ys.map f).foldl max (f x))) = true :=
          decide_eq_true hpx
        simp only [List.filter_cons, hd, if_true, List.headD]
      · have hd : (decide (f x = (ys.map f).foldl max (f x))) = false :=
          decide_eq_false hpx
        have hpy : (decide (f y = (ys.map f).foldl max (f x))) = false := by
          apply decide_eq_false
          intro hh
          apply hpx
          have hxle : f x ≤ (ys.map f).foldl max (f x) := le_foldl_max _ _
          have hge : (ys.map f).foldl max (f x) ≤ f x := hh ▸ hyx
          exact le_antisymm hxle hge
        simp only [List.filter_cons, hd, hpy, Bool.false_eq_true, if_false]

lemma pyMaxBy_eq_filter_head (f : Subj → ℚ) {l : List Subj} (h : l ≠ []) :
    pyMaxBy f l =
      (l.filter (fun z => decide (f z = maxOf (l.map f)))).headD default := by
  cases l with
  | nil => exact absurd rfl h
  | cons x xs =>
    rw [pyMaxBy, foldl_pyMax_eq_filter_head]
    rfl

lemma mark_pyMaxBy (f : Subj → ℚ) {l : List Subj} (h : l ≠ []) :
    f (pyMaxBy f l) = maxOf (l.map f) := by
  cases l with
  | nil => exact absurd rfl h
  | cons x xs =>
    rw [pyMaxBy]
    exact mark_foldl_pyMax f xs x

lemma pyMaxBy_mem (f : Subj → ℚ) {l : List Subj} (h : l ≠ []) :
    pyMaxBy f l ∈ l := by
  rw [pyMaxBy_eq_filter_head f h]
  have hmapne : l.map f ≠ [] := by
    intro hh
    exact h (List.map_eq_nil_iff.mp hh)
  have hM : maxOf (l.map f) ∈ l.map f := maxOf_mem hmapne
  obtain ⟨z, hz, hfz⟩ := List.mem_map.1 hM
  have hzf : z ∈ l.filter (fun w => decide (f w = maxOf (l.map f))) :=
    List.mem_filter.2 ⟨hz, decide_eq_true hfz⟩
  cases hfil : l.filter (fun w => decide (f w = maxOf (l.map f))) with
  | nil => rw [hfil] at hzf; cases hzf
  | cons a t =>
    have ha : a ∈ l.filter (fun w => decide (f w = maxOf (l.map f))) :=
      hfil ▸ List.mem_cons_self a t
    have := (List.mem_filter.1 ha).1
    simpa [List.headD] using this

lemma reconcileGroup_name (k : String) (occs : List Subj) :
    (reconcileGroup k occs).name = k := rfl

lemma reconcileGroup_mark_eq (k : String) (occs : List Subj) :
    (reconcileGroup k occs).mark = (pyMaxBy (fun o => o.mark) occs).mark := rfl

lemma reconcileGroup_markDisplay_eq (k : String) (occs : List Subj) :
    (reconcileGroup k occs).markDisplay =
      (pyMaxBy (fun o => o.mark) occs).markDisplay := rfl

lemma reconcileGroup_semester_eq (k : String) (occs : List Subj) :
    (reconcileGroup k occs).semester =
      ((sortByDate occs).headD default).semester := rfl

lemma reconcileGroup_releaseDate_eq (k : String) (occs : List Subj) :
    (reconcileGroup k occs).releaseDate =
      ((sortByDate occs).headD default).releaseDate := rfl

lemma reconcileGroup_parsedDate_eq (k : String) (occs : List Subj) :
    (reconcileGroup k occs).parsedDate =
      ((sortByDate occs).headD default).parsedDate := rfl

lemma reconcileGroup_mark {k : String} {occs : List Subj} (h : occs ≠ []) :
    (reconcileGroup k occs).mark = maxOf (occs.map Subj.mark) := by
  rw [reconcileGroup_mark_eq]
  exact mark_pyMaxBy (fun o => o.mark) h

lemma groups_map_reconcile_name (rows : List Subj) :
    ((subjectGroups rows).map (fun g => reconcileGroup g.fst g.snd)).map Subj.name =
      firstKeys (rows.map Subj.name) := by
  rw [subjectGroups_eq_groupsOf, groupsOf, List.map_map, List.map_map]
  refine (List.map_congr_left ?_).trans (List.map_id' _)
  intro k hk
  rfl

lemma fetch_map_name_perm (rows : List Subj) :
    List.Perm ((fetch_student_subjects rows).map Subj.name)
      (firstKeys (rows.map Subj.name)) := by
  rw [fetch_student_subjects]
  have hperm :=
    (sortByDate_perm ((subjectGroups rows).map
      (fun g => reconcileGroup g.fst g.snd))).map Subj.name
  rw [groups_map_reconcile_name] at hperm
  exact hperm

lemma mem_fetch_iff (rows : List Subj) (s : Subj) :
    s ∈ fetch_student_subjects rows ↔
      ∃ k, k ∈ firstKeys (rows.map Subj.name) ∧
        s = reconcileGroup k (rows.filter (fun o => o.name == k)) := by
  rw [fetch_student_subjects, sortByDate, List.mem_insertionSort,
    subjectGroups_eq_groupsOf, groupsOf, List.map_map, List.mem_map]
  constructor
  · rintro ⟨k, hk, rfl⟩
    exact ⟨k, hk, rfl⟩
  · rintro ⟨k, hk, rfl⟩
    exact ⟨k, hk, rfl⟩

lemma filter_name_ne_nil {rows : List Subj} {k : String}
    (hk : k ∈ firstKeys (rows.map Subj.name)) :
    rows.filter (fun o => o.name == k) ≠ [] := by
  have hmem : k ∈ rows.map Subj.name := (mem_firstKeys _ _).1 hk
  obtain ⟨o, ho, rfl⟩ := List.mem_map.1 hmem
  intro hh
  rw [List.filter_eq_nil_iff] at hh
  exact hh o ho (by simp)

lemma fetch_sorted (rows : List Subj) :
    (fetch_student_subjects rows).Sorted dateLE :=
  sortByDate_sorted _

lemma fetch_filter_dateKey (rows : List Subj) (K : Nat) :
    (fetch_student_subjects rows).filter (fun s => dateKey s == K) =
      ((subjectGroups rows).map (fun g => reconcileGroup g.fst g.snd)).filter
        (fun s => dateKey s == K) :=
  filter_sortByDate K _

lemma splitParas_flatten : ∀ (l acc : List Char),
    ((splitParas l acc).map (fun p => p ++ dnl)).flatten = acc.reverse ++ l ++ dnl := by
  intro l acc
  induction l, acc using splitParas.induct with
  | case1 acc => simp [splitParas]
  | case2 c acc => simp [splitParas]
  | case3 c1 c2 rest acc hsep ih =>
    rw [splitParas, if_pos hsep]
    obtain ⟨rfl, rfl⟩ := hsep
    simp only [List.map_cons, List.flatten_cons, ih]
    simp [dnl]
  | case4 c1 c2 rest acc hsep ih =>
    rw [splitParas, if_neg hsep, ih]
    simp

lemma splitParas_no_newline (l : List Char) (h : '\n' ∉ l) :
    ∀ acc, splitParas l acc = [acc.reverse ++ l] := by
  induction l with
  | nil => intro acc; simp [splitParas]
  | cons c tl ih =>
    intro acc
    have hc : c ≠ '\n' := fun hh => h (hh ▸ List.mem_cons_self c tl)
    have htl : '\n' ∉ tl := fun hh => h (List.mem_cons_of_mem c hh)
    cases tl with
    | nil => simp [splitParas]
    | cons c2 rest =>
      rw [splitParas, if_neg (by rintro ⟨h1, _⟩; exact hc h1), ih htl (c :: acc)]
      simp

lemma splitParas_append_sep {p : List Char} (h : '\n' ∉ p) :
    ∀ acc rest, splitParas (p ++ ('\n' :: '\n' :: rest)) acc =
      (acc.reverse ++ p) :: splitParas rest [] := by
  induction p with
  | nil =>
    intro acc rest
    rw [List.nil_append, splitParas, if_pos ⟨rfl, rfl⟩]
    simp
  | cons c p2 ih =>
    intro acc rest
    have hc : c ≠ '\n' := fun hh => h (hh ▸ List.mem_cons_self c p2)
    have hp2 : '\n' ∉ p2 := fun hh => h (List.mem_cons_of_mem c hh)
    rw [List.cons_append]
    cases hp : p2 ++ ('\n' :: '\n' :: rest) with
    | nil => exact absurd hp (by simp)
    | cons d tl =>
      rw [splitParas, if_neg (by rintro ⟨h1, _⟩; exact hc h1), ← hp,
        ih hp2 (c :: acc) rest]
      simp

lemma packChunks_flatten : ∀ (ps : List (List Char)) (cur : List Char),
    (packChunks ps cur).flatten = cur ++ (ps.map (fun p => p ++ dnl)).flatten := by
  intro ps
  induction ps with
  | nil =>
    intro cur
    rw [packChunks]
    by_cases h : cur.isEmpty
    · rw [if_pos h, List.isEmpty_iff.mp h]
      rfl
    · rw [if_neg h]
      simp
  | cons p ps ih =>
    intro cur
    rw [packChunks]
    by_cases hov : 4000 < cur.length + p.length + 2
    · rw [if_pos hov]
      by_cases hce : cur.isEmpty
      · rw [if_pos hce, List.isEmpty_iff.mp hce]
        simp [ih]
      · rw [if_neg hce]
        simp [ih]
    · rw [if_neg hov, ih]
      simp

lemma packChunks_bounded : ∀ (ps : List (List Char)) (cur : List Char),
    cur.length ≤ 4000 → (∀ p ∈ ps, p.length + 2 ≤ 4000) →
    ∀ c ∈ packChunks ps cur, c.length ≤ 4000 := by
  intro ps
  induction ps with
  | nil =>
    intro cur hcur _ c hc
    rw [packChunks] at hc
    by_cases h : cur.isEmpty
    · rw [if_pos h] at hc
      cases hc
    · rw [if_neg h] at hc
      rcases List.mem_singleton.1 hc with rfl
      exact hcur
  | cons p ps ih =>
    intro cur hcur hall c hc
    rw [packChunks] at hc
    by_cases hov : 4000 < cur.length + p.length + 2
    · rw [if_pos hov] at hc
      rcases List.mem_append.1 hc with h1 | h2
      · by_cases hce : cur.isEmpty
        · rw [if_pos hce] at h1
          cases h1
        · rw [if_neg hce] at h1
          rcases List.mem_singleton.1 h1 with rfl
          exact hcur
      · have hplen : p.length + 2 ≤ 4000 := hall p (List.mem_cons_self p ps)
        have hnew : (p ++ dnl).length ≤ 4000 := by
          rw [List.length_append]
          have hd : dnl.length = 2 := rfl
          omega
        exact ih (p ++ dnl) hnew (fun q hq => hall q (List.mem_cons_of_mem p hq)) c h2
    · rw [if_neg hov] at hc
      have hle := Nat.le_of_not_lt hov
      have hnew : (cur ++ p ++ dnl).length ≤ 4000 := by
        rw [List.length_append, List.length_append]
        have hd : dnl.length = 2 := rfl
        omega
      exact ih _ hnew (fun q hq => hall q (List.mem_cons_of_mem p hq)) c hc

lemma dropWhile_cons_space (l : List Char) :
    (' ' :: l).dropWhile isPySpace = l.dropWhile isPySpace := by
  rw [List.dropWhile_cons, if_pos (by decide)]

lemma pyStripList_cons_space (l : List Char) :
    pyStripList (' ' :: l) = pyStripList l := by
  rw [pyStripList, pyStripList, dropWhile_cons_space]

lemma pyStripList_append_space (l : List Char) :
    pyStripList (l ++ [' ']) = pyStripList l := by
  rw [pyStripList, pyStripList, List.dropWhile_append]
  by_cases h : (l.dropWhile isPySpace).isEmpty
  · rw [if_pos h, List.isEmpty_iff.mp h]
    rfl
  · rw [if_neg h]
    simp only [List.reverse_append, List.reverse_singleton, List.singleton_append]
    rw [dropWhile_cons_space]

lemma pyStripList_all_space {l : List Char} (h : l.all isPySpace = true) :
    pyStripList l = [] := by
  have hd : l.dropWhile isPySpace = [] := by
    rw [List.dropWhile_eq_nil_iff]
    intro x hx
    exact List.all_eq_true.mp h x hx
  rw [pyStripList, hd]
  rfl

/-- C5: the grade classifier returns pass on every numeric value of at least
60, fail on every numeric value below 60 and unknown on every non-numeric
input; mark 60 classifies as pass and mark 59.99 as fail. -/
theorem C5_grade_classifier :
    (∀ q : ℚ, 60 ≤ q → get_status (some q) = Status.pass) ∧
    (∀ q : ℚ, q < 60 → get_status (some q) = Status.fail) ∧
    get_status none = Status.unknown ∧
    get_status (some 60) = Status.pass ∧
    get_status (some (5999 / 100)) = Status.fail := by
  have h99 : ¬ (60 : ℚ) ≤ 5999 / 100 := by norm_num
  refine ⟨fun q hq => ?_, fun q hq => ?_, rfl, by decide, by simp [get_status, h99]⟩
  · simp only [get_status]
    rw [if_pos hq]
  · simp only [get_status]
    rw [if_neg (not_le_of_lt hq)]

/-- Witness for C5 at the marks 60 and 59. -/
theorem C5_grade_classifier_witness :
    get_status (some 60) = Status.pass ∧ get_status (some 59) = Status.fail :=
  ⟨C5_grade_classifier.1 60 (le_refl 60), C5_grade_classifier.2.1 59 (by norm_num)⟩

/-- C2: the reconciled output carries pairwise distinct subject names, and a
name appears in the output exactly when it appears among the input
occurrences, so there is exactly one record per distinct input name. -/
theorem C2_one_record_per_name (rows : List Subj) :
    ((fetch_student_subjects rows).map Subj.name).Nodup ∧
    ∀ n : String,
      n ∈ (fetch_student_subjects rows).map Subj.name ↔ n ∈ rows.map Subj.name := by
  have hperm := fetch_map_name_perm rows
  refine ⟨hperm.nodup_iff.mpr (nodup_firstKeys _), fun n => ?_⟩
  rw [hperm.mem_iff, mem_firstKeys]

/-- C1: each reconciled record carries the maximum mark over its group of
same-name occurrences together with the semester label and raw release-date
string of an occurrence whose parsed date is earliest among the group, an
unparsable date counting as the minimum; and on the worked example with
marks 55, 90, 70 on dates 2024/01/10, 2023/09/01, 2024/03/01 the record has
mark 90 paired with date 2023/09/01 and that occurrence's semester label. -/
theorem C1_max_mark_with_oldest_date :
    (∀ (rows : List Subj) (s : Subj), s ∈ fetch_student_subjects rows →
      s.mark = maxOf ((rows.filter (fun o => o.name == s.name)).map Subj.mark) ∧
      ∃ o ∈ rows.filter (fun o => o.name == s.name),
        (∀ y ∈ rows.filter (fun o => o.name == s.name), dateKey o ≤ dateKey y) ∧
        s.semester = o.semester ∧ s.releaseDate = o.releaseDate) ∧
    (fetch_student_subjects exRows).map
        (fun s => (s.mark, s.releaseDate, s.semester)) =
      [(90, "2023/09/01", "sem-b")] := by
  constructor
  · intro rows s hs
    obtain ⟨k, hk, rfl⟩ := (mem_fetch_iff rows s).1 hs
    rw [reconcileGroup_name]
    have hne : rows.filter (fun o => o.name == k) ≠ [] := filter_name_ne_nil hk
    refine ⟨reconcileGroup_mark hne,
      (sortByDate (rows.filter (fun o => o.name == k))).headD default,
      headD_sortByDate_mem hne, headD_sortByDate_min _,
      reconcileGroup_semester_eq k _, reconcileGroup_releaseDate_eq k _⟩
  · decide

/-- Witness for C1's general part at the worked example rows. -/
theorem C1_max_mark_with_oldest_date_witness :
    exRec.mark = maxOf ((exRows.filter (fun o => o.name == exRec.name)).map Subj.mark) ∧
    ∃ o ∈ exRows.filter (fun o => o.name == exRec.name),
      (∀ y ∈ exRows.filter (fun o => o.name == exRec.name), dateKey o ≤ dateKey y) ∧
      exRec.semester = o.semester ∧ exRec.releaseDate = o.releaseDate :=
  C1_max_mark_with_oldest_date.1 exRows exRec (by decide)

/-- C4: within a subject group the reconciled record's mark value and mark
display string come from the first occurrence, in original row order, that
attains the maximal numeric mark of the group. -/
theorem C4_stable_max (rows : List Subj) (s : Subj)
    (hs : s ∈ fetch_student_subjects rows) :
    s.mark = (((rows.filter (fun o => o.name == s.name)).filter
      (fun z => decide (z.mark =
        maxOf ((rows.filter (fun o => o.name == s.name)).map Subj.mark)))).headD
          default).mark ∧
    s.markDisplay = (((rows.filter (fun o => o.name == s.name)).filter
      (fun z => decide (z.mark =
        maxOf ((rows.filter (fun o => o.name == s.name)).map Subj.mark)))).headD
          default).markDisplay := by
  obtain ⟨k, hk, rfl⟩ := (mem_fetch_iff rows s).1 hs
  rw [reconcileGroup_name]
  have hne : rows.filter (fun o => o.name == k) ≠ [] := filter_name_ne_nil hk
  rw [reconcileGroup_mark_eq, reconcileGroup_markDisplay_eq,
    pyMaxBy_eq_filter_head _ hne]
  exact ⟨rfl, rfl⟩

/-- Witness for C4 at a group with two occurrences tied at mark 90. -/
theorem C4_stable_max_witness :
    exTieRec.mark = (((exTieRows.filter (fun o => o.name == exTieRec.name)).filter
      (fun z => decide (z.mark =
        maxOf ((exTieRows.filter (fun o => o.name == exTieRec.name)).map
          Subj.mark)))).headD default).mark ∧
    exTieRec.markDisplay =
      (((exTieRows.filter (fun o => o.name == exTieRec.name)).filter
        (fun z => decide (z.mark =
          maxOf ((exTieRows.filter (fun o => o.name == exTieRec.name)).map
            Subj.mark)))).headD default).markDisplay :=
  C4_stable_max exTieRows exTieRec (by decide)

lemma lineHasCheck_markLine (s : Subj) :
    lineHasCheck (markLine s) = decide (60 ≤ s.mark) := by
  by_cases h : 60 ≤ s.mark
  · rw [markLine, if_pos h, decide_eq_true h, lineHasCheck, String.data_append]
    rfl
  · rw [markLine, if_neg h, decide_eq_false h, lineHasCheck, String.data_append]
    rfl

/-- C8: the check-mark and cross annotation that the formatter puts on each
mark line agrees with the status the grade classifier recomputes from that
mark, and the summary pass count equals the number of check-marked lines. -/
theorem C8_formatter_matches_classifier (subs : List Subj) :
    (∀ s ∈ subs,
      (lineHasCheck (markLine s) = true ↔ get_status (some s.mark) = Status.pass)) ∧
    passed_count subs = (subs.filter (fun s => lineHasCheck (markLine s))).length := by
  constructor
  · intro s _
    rw [lineHasCheck_markLine]
    by_cases h : 60 ≤ s.mark
    · simp [get_status, h]
    · simp only [get_status, if_neg h, decide_eq_false h]
      constructor
      · intro hh
        exact absurd hh (by decide)
      · intro hh
        exact absurd hh (by decide)
  · rw [passed_count]
    congr 1
    refine List.filter_congr (fun s _ => ?_)
    rw [lineHasCheck_markLine]

/-- Witness for C8 at a one-subject list with a passing mark. -/
theorem C8_formatter_matches_classifier_witness :
    lineHasCheck (markLine exOcc2) = true ↔
      get_status (some exOcc2.mark) = Status.pass :=
  (C8_formatter_matches_classifier [exOcc2]).1 exOcc2 (by decide)

/-- C9: among reconciled subjects whose carried sort keys are equal, the
output order is the first-occurrence order of their names in the input rows:
the grouping keeps insertion order and the final sort is stable. -/
theorem C9_equal_dates_keep_first_occurrence_order (rows : List Subj) (K : Nat) :
    ((fetch_student_subjects rows).filter (fun s => dateKey s == K)).map Subj.name =
      (firstKeys (rows.map Subj.name)).filter (fun k =>
        dateKey (reconcileGroup k (rows.filter (fun o => o.name == k))) == K) := by
  rw [fetch_filter_dateKey, subjectGroups_eq_groupsOf, groupsOf, List.map_map,
    List.filter_map, List.map_map]
  refine (List.map_congr_left ?_).trans (List.map_id' _)
  intro k hk
  rfl

/-- C3 amended: the final list is sorted ascending by the carried date key
with an unparsable date treated as the minimum date 0001/01/01; every input
subject name, also one whose only occurrence has an unparsable date, appears
in the final list; and a subject with an unparsable date is positioned
before every subject whose valid parsed date is strictly after 0001/01/01.
It may however come after a subject whose valid parsed date equals
0001/01/01, the minimum, because the two sort keys then tie. -/
theorem C3_sorted_with_unparsable_first :
    (∀ rows : List Subj, (fetch_student_subjects rows).Sorted dateLE) ∧
    (∀ (rows : List Subj) (o : Subj), o ∈ rows →
      o.name ∈ (fetch_student_subjects rows).map Subj.name) ∧
    (∀ (rows : List Subj) (i j : Nat)
      (hi : i < (fetch_student_subjects rows).length)
      (hj : j < (fetch_student_subjects rows).length),
      ((fetch_student_subjects rows).get ⟨i, hi⟩).parsedDate = none →
      dateMinCode < dateKey ((fetch_student_subjects rows).get ⟨j, hj⟩) →
      i < j) := by
  refine ⟨fun rows => fetch_sorted rows, fun rows o ho => ?_, ?_⟩
  · have hperm := fetch_map_name_perm rows
    rw [hperm.mem_iff, mem_firstKeys]
    exact List.mem_map_of_mem _ ho
  · intro rows i j hi hj hnone hkey
    by_contra hij
    rcases Nat.eq_or_lt_of_le (Nat.le_of_not_lt hij) with heq | hlt
    · have hnone2 : ((fetch_student_subjects rows).get ⟨j, hj⟩).parsedDate = none := by
        subst heq
        exact hnone
      rw [dateKey, hnone2] at hkey
      exact absurd hkey (by decide)
    · have hfin : (⟨j, hj⟩ : Fin (fetch_student_subjects rows).length) < ⟨i, hi⟩ := hlt
      have hrel := (fetch_sorted rows).rel_get_of_lt hfin
      rw [dateLE] at hrel
      have hkeyi : dateKey ((fetch_student_subjects rows).get ⟨i, hi⟩) = dateMinCode := by
        rw [dateKey, hnone]
        rfl
      rw [hkeyi] at hrel
      exact absurd (Nat.lt_of_lt_of_le hkey hrel) (Nat.lt_irrefl _)

/-- Counterexample to C3 as stated: with a subject dated 0001/01/01, a valid
parsable date equal to datetime.min, listed before a subject whose date
string N/A is unparsable, the final order keeps the valid-date subject
first, so the unparsable-date subject is not positioned before every
subject with a valid parsed date. -/
theorem C3_counterexample :
    parse_date "N/A" = none ∧
    parse_date "0001/01/01" = some (CalDate.mk 1 1 1) ∧
    (fetch_student_subjects [exMinDate, exNoDate]).map
        (fun s => (s.name, s.parsedDate)) =
      [("A", some (CalDate.mk 1 1 1)), ("B", none)] := by decide

/-- Witness for C3's positional part: with the unparsable-date subject first
and a 2024-dated subject second, index 0 comes before index 1. -/
theorem C3_sorted_with_unparsable_first_witness : (0 : Nat) < 1 :=
  C3_sorted_with_unparsable_first.2.2 [exNoDate, exLateDate] 0 1
    (by decide) (by decide) (by decide) (by decide)

/-- Replicated lists of a character other than newline contain no newline. -/
lemma noNewline_replicate (n : Nat) (c : Char) (hc : c ≠ '\n') :
    '\n' ∉ List.replicate n c := by
  intro h
  exact hc (List.eq_of_mem_replicate h).symm

/-- Counterexample to C6 as stated: the 4001-character single-paragraph
message exceeds the threshold, yet the delivery step produces one single
chunk of 4003 characters, neither two chunks nor a chunk within the
threshold. -/
theorem C6_counterexample :
    4000 < bigMsg.length ∧ (sendChunks bigMsg).map List.length = [4003] := by
  have hlen : bigMsg.length = 4001 := List.length_replicate _ _
  have hnn : '\n' ∉ bigMsg := noNewline_replicate 4001 'a' (by decide)
  have hsplit : splitParas bigMsg [] = [bigMsg] := by
    rw [splitParas_no_newline bigMsg hnn []]
    rfl
  refine ⟨by rw [hlen]; norm_num, ?_⟩
  rw [sendChunks, if_pos (by rw [hlen]; norm_num), hsplit, packChunks]
  have hc : 4000 < ([] : List Char).length + bigMsg.length + 2 := by
    rw [hlen]
    norm_num
  rw [if_pos hc, if_pos (show ([] : List Char).isEmpty = true from rfl),
    List.nil_append, packChunks]
  have hne : ¬ ((bigMsg ++ dnl).isEmpty = true) := by
    rw [List.isEmpty_iff]
    simp [dnl]
  rw [if_neg hne]
  simp only [List.map_cons, List.map_nil, List.length_append]
  rw [hlen]
  rfl

/-- C6 amended: for a message over the threshold the chunks concatenate, in
order, to the original message followed by one trailing paragraph separator,
so content and order are reconstructed; and provided every paragraph plus
its two-character separator fits in the threshold, there are at least two
chunks, each of length at most the threshold.  A single paragraph longer
than the threshold less two instead becomes one chunk that exceeds the
threshold. -/
theorem C6_split_reconstructs_and_bounds :
    (∀ msg : List Char, 4000 < msg.length →
      (sendChunks msg).flatten = msg ++ dnl) ∧
    (∀ msg : List Char, 4000 < msg.length →
      (∀ p ∈ splitParas msg [], p.length + 2 ≤ 4000) →
      2 ≤ (sendChunks msg).length ∧ ∀ c ∈ sendChunks msg, c.length ≤ 4000) := by
  have hflat : ∀ msg : List Char, 4000 < msg.length →
      (sendChunks msg).flatten = msg ++ dnl := by
    intro msg hlen
    rw [sendChunks, if_pos hlen, packChunks_flatten, splitParas_flatten]
    simp
  refine ⟨hflat, fun msg hlen hpar => ?_⟩
  have hbound : ∀ c ∈ sendChunks msg, c.length ≤ 4000 := by
    intro c hc
    rw [sendChunks, if_pos hlen] at hc
    exact packChunks_bounded (splitParas msg []) [] (by simp) hpar c hc
  refine ⟨?_, hbound⟩
  by_contra hcnt
  have hflatlen : (sendChunks msg).flatten.length = msg.length + 2 := by
    rw [hflat msg hlen, List.length_append]
    rfl
  cases hch : sendChunks msg with
  | nil =>
    rw [hch] at hflatlen
    simp only [List.flatten_nil, List.length_nil] at hflatlen
    omega
  | cons c t =>
    cases t with
    | nil =>
      have hcmem : c ∈ sendChunks msg := hch ▸ List.mem_cons_self c []
      have hcb := hbound c hcmem
      rw [hch] at hflatlen
      simp at hflatlen
      omega
    | cons d u =>
      rw [hch] at hcnt
      simp [List.length_cons] at hcnt

lemma twoParaMsg_split : splitParas twoParaMsg [] = [paraA, paraB] := by
  have hA : '\n' ∉ paraA := noNewline_replicate 2500 'a' (by decide)
  have hB : '\n' ∉ paraB := noNewline_replicate 2500 'b' (by decide)
  rw [twoParaMsg, splitParas_append_sep hA [] paraB,
    splitParas_no_newline paraB hB []]
  simp

lemma twoParaMsg_length : twoParaMsg.length = 5002 := by
  rw [twoParaMsg, List.length_append,
    show paraA.length = 2500 from List.length_replicate _ _]
  simp only [List.length_cons,
    show paraB.length = 2500 from List.length_replicate _ _]

/-- Witness for C6's amended parts: reconstruction at the single-paragraph
message, and the two-chunk guarantee at a two-paragraph message whose
paragraphs both fit the threshold. -/
theorem C6_split_reconstructs_and_bounds_witness :
    (sendChunks bigMsg).flatten = bigMsg ++ dnl ∧
      2 ≤ (sendChunks twoParaMsg).length :=
  ⟨C6_split_reconstructs_and_bounds.1 bigMsg
      (by rw [show bigMsg.length = 4001 from List.length_replicate _ _]; norm_num),
   (C6_split_reconstructs_and_bounds.2 twoParaMsg
      (by rw [twoParaMsg_length]; norm_num)
      (by
        rw [twoParaMsg_split]
        intro p hp
        rcases List.mem_cons.1 hp with rfl | hp2
        · norm_num [paraA]
        · rcases List.mem_singleton.1 hp2 with rfl
          norm_num [paraB])).1⟩

/-- C7 amended: an inbound text whose whitespace-stripped form does not
consist only of digits gets the fixed invalid-id reply and no fetch is
attempted.  The raw text itself may still contain whitespace around a digit
identifier, since stripping happens before the validation. -/
theorem C7_nondigit_input_rejected (text : String)
    (h : pyIsDigit (pyStrip text) = false) :
    handle_student_id text = BotAction.invalidReply ∧
      ∀ sid : String, handle_student_id text ≠ BotAction.fetch sid := by
  have hh : handle_student_id text = BotAction.invalidReply := by
    rw [handle_student_id]
    simp [h]
  refine ⟨hh, fun sid hfetch => ?_⟩
  rw [hh] at hfetch
  cases hfetch

/-- Witness for C7 at the input abc123. -/
theorem C7_nondigit_input_rejected_witness :
    handle_student_id "abc123" = BotAction.invalidReply :=
  (C7_nondigit_input_rejected "abc123" (by decide)).1

/-- Counterexample to C7 as stated: the inbound text of 123 followed by a
space does not consist only of decimal digits, yet the bot strips it and
fetches identifier 123 instead of replying with the invalid-id message. -/
theorem C7_counterexample :
    ("123 ").data.all isPyDigit = false ∧
    handle_student_id "123 " = BotAction.fetch "123" := by decide

/-- C10: the inbound text is stripped before the digits-only validation: the
identifier 202112345 surrounded by spaces is accepted and fetched as the
stripped identifier, an empty or whitespace-only message is rejected with
the invalid-id reply, and surrounding any message with single spaces never
changes the outcome. -/
theorem C10_strip_before_validation :
    handle_student_id " 202112345 " = BotAction.fetch "202112345" ∧
    (∀ s : String, s.data.all isPySpace = true →
      handle_student_id s = BotAction.invalidReply) ∧
    (∀ s : String,
      handle_student_id (String.mk (' ' :: s.data ++ [' '])) =
        handle_student_id s) := by
  refine ⟨by decide, fun s hs => ?_, fun s => ?_⟩
  · have hstrip : pyStripList s.data = [] := pyStripList_all_space hs
    rw [handle_student_id]
    simp [pyStrip, pyIsDigit, hstrip]
  · have hps : pyStrip (String.mk (' ' :: s.data ++ [' '])) = pyStrip s := by
      rw [pyStrip, pyStrip]
      show String.mk (pyStripList (' ' :: s.data ++ [' '])) =
        String.mk (pyStripList s.data)
      rw [show (' ' :: s.data ++ [' ']) = ' ' :: (s.data ++ [' ']) from rfl,
        pyStripList_cons_space, pyStripList_append_space]
    rw [handle_student_id, handle_student_id, hps]

/-- Witness for C10 at a whitespace-only message and at the digit message 9
surrounded by spaces. -/
theorem C10_strip_before_validation_witness :
    handle_student_id "   " = BotAction.invalidReply ∧
      handle_student_id (String.mk (' ' :: ("9").data ++ [' '])) =
        handle_student_id "9" :=
  ⟨C10_strip_before_validation.2.1 "   " (by decide),
   C10_strip_before_validation.2.2 "9"⟩
